import Mathlib

/-!
Shallow embedding of the `slm_conv` SLM memory-image converter
(`src/src/main.rs`) and verification of its specification claims.

Strings are modelled as `List Char`; the sparse memory image
(`HashMap<usize, String>` in the source) is modelled as an association
list with unique keys, inserted in file order.
-/

set_option maxHeartbeats 1000000

/-- Table of the sixteen uppercase hexadecimal digit characters,
as produced by Rust's `{:X}` formatting. -/
def hexDigitList : List Char :=
  ['0', '1', '2', '3', '4', '5', '6', '7', '8', '9', 'A', 'B', 'C', 'D', 'E', 'F']

/-- The `n`-th uppercase hexadecimal digit character. -/
def hexDigitU (n : Nat) : Char := hexDigitList.getD n '0'

/-- Numeric value of a hexadecimal digit character, accepting both cases,
as in Rust's `usize::from_str_radix(_, 16)`. -/
def hexDigVal? (c : Char) : Option Nat :=
  if '0' ≤ c ∧ c ≤ '9' then some (c.toNat - '0'.toNat)
  else if 'a' ≤ c ∧ c ≤ 'f' then some (c.toNat - 'a'.toNat + 10)
  else if 'A' ≤ c ∧ c ≤ 'F' then some (c.toNat - 'A'.toNat + 10)
  else none

/-- Numeric value of a decimal digit character. -/
def decDigVal? (c : Char) : Option Nat :=
  if '0' ≤ c ∧ c ≤ '9' then some (c.toNat - '0'.toNat) else none

/-- Accumulating evaluation of a hexadecimal digit string, most significant
digit first; `none` as soon as a non-hex character is met. -/
def hexValCore : List Char → Nat → Option Nat
  | [], acc => some acc
  | c :: r, acc =>
    match hexDigVal? c with
    | some d => hexValCore r (16 * acc + d)
    | none => none

/-- Model of Rust's `usize::from_str_radix(s, 16)`: an optional leading `+`
sign followed by at least one hexadecimal digit.  (Overflow of the 64-bit
`usize` is not modelled; no claim depends on it.) -/
def hexVal? (l : List Char) : Option Nat :=
  let l' := if l.head? = some '+' then l.tail else l
  if l' = [] then none else hexValCore l' 0

/-- Uppercase hexadecimal digit expansion of a natural number, most
significant digit first, as produced by Rust's `{:X}` formatting. -/
def hexDigitsU (n : Nat) : List Char :=
  if n < 16 then [hexDigitU n]
  else hexDigitsU (n / 16) ++ [hexDigitU (n % 16)]
  termination_by n
  decreasing_by
    exact Nat.div_lt_self (by omega) (by omega)

/-- Model of Rust's `{:08X}` formatting: uppercase hexadecimal, left
zero-padded to a minimum width of eight characters. -/
def fmt8X (n : Nat) : List Char :=
  List.replicate (8 - (hexDigitsU n).length) '0' ++ hexDigitsU n

/-- Decimal digit expansion of a natural number, most significant digit
first, as produced by Rust's `{}` formatting of an unsigned integer. -/
def decDigits (n : Nat) : List Char :=
  if n < 10 then [hexDigitU n]
  else decDigits (n / 10) ++ [hexDigitU (n % 10)]
  termination_by n
  decreasing_by
    exact Nat.div_lt_self (by omega) (by omega)

/-- Model of Rust's `str::split(' ')`: split at every single space,
keeping empty segments; the result is always nonempty. -/
def splitSpace : List Char → List (List Char)
  | [] => [[]]
  | c :: r =>
    if c = ' ' then [] :: splitSpace r
    else
      match splitSpace r with
      | t :: ts => (c :: t) :: ts
      | [] => [[c]]

/-- Model of Rust's `str::trim_start_matches("0x")`: repeatedly strip a
leading `0x`. -/
def trim0x : List Char → List Char
  | c0 :: c1 :: r => if c0 = '0' ∧ c1 = 'x' then trim0x r else c0 :: c1 :: r
  | l => l

/-- The endianness swap of `mem_from_file` (src/src/main.rs lines 53-62):
for `i` in `0..4` push characters `6-2i` and `7-2i` of the 8-character
word.  Only ever applied to words of exactly eight characters; other
lengths are returned unchanged (unreachable in the program). -/
def swapE : List Char → List Char
  | [c0, c1, c2, c3, c4, c5, c6, c7] => [c6, c7, c4, c5, c2, c3, c0, c1]
  | l => l

/-- How an entry's source location is reported in error messages:
`index @{:x}` for the `@index` line form, `address 0x{:x}` otherwise
(the `key_str` closure of `mem_from_file`). -/
inductive SlmKey where
  | index (n : Nat)
  | address (n : Nat)
deriving DecidableEq, Repr

/-- Failure modes of the SLM parser.  `wordLength` and `duplicate` carry
the `key_str` location and the source path, matching the two assertion
messages in `mem_from_file`; `missingToken` is the `v[1]` out-of-bounds
panic and `badKey` the `from_str_radix(..).unwrap()` panic. -/
inductive SlmErr where
  | missingToken
  | badKey
  | wordLength (k : SlmKey) (path : List Char)
  | duplicate (k : SlmKey) (path : List Char)
deriving DecidableEq, Repr

/-- The `key_str` form for a parsed line: the current line's `indexed`
flag selects between index form (`addr / 4`) and address form. -/
def mkKey (indexed : Bool) (addr : Nat) : SlmKey :=
  if indexed then SlmKey.index (addr / 4) else SlmKey.address addr

/-- Per-line body of `mem_from_file`: split on spaces, take the data
token, resolve the first token (index form `@hex` means byte address
`index * 4`; address form is the literal value, with optional `0x`
prefix), validate that the data word has exactly eight characters, and
optionally swap endianness.  Returns the byte address, the `key_str`
location, and the stored data word. -/
def parseLine (path : List Char) (swap_endianness : Bool) (l : List Char) :
    Except SlmErr (Nat × SlmKey × List Char) :=
  let v := splitSpace l
  match v[1]? with
  | none => .error .missingToken
  | some tok1 =>
    let data_word := trim0x tok1
    let tok0 := v.headD []
    let keyParse : Except SlmErr (Nat × Bool) :=
      if tok0.head? = some '@' then
        match hexVal? tok0.tail with
        | some idx => .ok (idx * 4, true)
        | none => .error .badKey
      else
        match hexVal? (trim0x tok0) with
        | some a => .ok (a, false)
        | none => .error .badKey
    match keyParse with
    | .error e => .error e
    | .ok (addr, indexed) =>
      if data_word.length = 8 then
        .ok (addr, mkKey indexed addr,
             if swap_endianness then swapE data_word else data_word)
      else
        .error (.wordLength (mkKey indexed addr) path)

/-- Lookup in the association-list model of the `HashMap`. -/
def mlookup (k : Nat) : List (Nat × List Char) → Option (List Char)
  | [] => none
  | (a, v) :: r => if a = k then some v else mlookup k r

/-- Folding the lines of an SLM file into the memory map, failing on the
first malformed line or duplicate byte address (the loop body of
`mem_from_file`). -/
def memFromLines (path : List Char) (swap_endianness : Bool) :
    List (List Char) → List (Nat × List Char) →
    Except SlmErr (List (Nat × List Char))
  | [], mem => .ok mem
  | l :: ls, mem =>
    match parseLine path swap_endianness l with
    | .error e => .error e
    | .ok (addr, key, data) =>
      if (mlookup addr mem).isSome then .error (.duplicate key path)
      else memFromLines path swap_endianness ls (mem ++ [(addr, data)])

/-- Model of `mem_from_file` (src/src/main.rs lines 28-70): read an SLM
file, given as its list of lines, into a memory map. -/
def mem_from_file (path : List Char) (swap_endianness : Bool)
    (lines : List (List Char)) : Except SlmErr (List (Nat × List Char)) :=
  memFromLines path swap_endianness lines []

/-- Model of the input-loading match in `main` (src/src/main.rs lines
211-214): no input file yields an empty memory map. -/
def loadMem (input : Option (List (List Char))) (path : List Char)
    (swap_endianness : Bool) : Except SlmErr (List (Nat × List Char)) :=
  match input with
  | some lines => mem_from_file path swap_endianness lines
  | none => .ok []

/-- Derived geometry quantity `words_per_line = (word_width / 8) / 4`
(src/src/main.rs lines 235-236): 32-bit sub-words per output line. -/
def words_per_line (word_width : Nat) : Nat := word_width / 8 / 4

/-- Derived geometry quantity `words_in_parallel = words_per_line *
n_parallel` (src/src/main.rs line 237). -/
def words_in_parallel (word_width n_parallel : Nat) : Nat :=
  words_per_line word_width * n_parallel

/-- The logical word index computed in the output loop
(src/src/main.rs lines 276-277):
`idx = i_par*words_per_line + words_in_parallel*i_word +
words_in_parallel*n_rows*i_ser`. -/
def fetchIdx (word_width n_parallel n_rows i_ser i_par i_word : Nat) : Nat :=
  i_par * words_per_line word_width +
    words_in_parallel word_width n_parallel * i_word +
    words_in_parallel word_width n_parallel * n_rows * i_ser

/-- The default zero word emitted for absent addresses. -/
def zeros8 : List Char := ['0', '0', '0', '0', '0', '0', '0', '0']

/-- The `mem_val` closure of `main` (src/src/main.rs lines 247-253): look
up byte address `start_addr + idx * 4`; absent addresses yield the zero
word. -/
def mem_val (mem : List (Nat × List Char)) (start_addr idx : Nat) : List Char :=
  (mlookup (start_addr + idx * 4) mem).getD zeros8

/-- One output line of the emitter (src/src/main.rs lines 274-284):
`@` then the row index in `{:08X}` format, a space, then the sub-words at
`idx + i_sw` for `i_sw` from `words_per_line - 1` down to `0`, then a
newline. -/
def lineChars (mem : List (Nat × List Char))
    (start_addr word_width n_parallel n_rows i_ser i_par i_word : Nat) :
    List Char :=
  '@' :: fmt8X i_word ++ ' ' ::
    ((List.range (words_per_line word_width)).reverse.map (fun i_sw =>
      mem_val mem start_addr
        (fetchIdx word_width n_parallel n_rows i_ser i_par i_word + i_sw))).flatten
    ++ ['\n']

/-- The `n_rows` lines of the output file for bank
`(i_ser, i_par)` (the innermost loop of `main`). -/
def bankLines (mem : List (Nat × List Char))
    (start_addr word_width n_parallel n_rows i_ser i_par : Nat) :
    List (List Char) :=
  (List.range n_rows).map
    (lineChars mem start_addr word_width n_parallel n_rows i_ser i_par)

/-- Span of a list up to the first character that belongs to `stops`:
returns the clean prefix and the rest (starting with a stop character,
when one occurs). -/
def spanNe (stops : List Char) : List Char → List Char × List Char
  | [] => ([], [])
  | c :: r =>
    if c ∈ stops then ([], c :: r)
    else
      let p := spanNe stops r
      (c :: p.1, p.2)

/-- Span of the leading decimal digits of a list. -/
def spanDigits : List Char → List Char × List Char
  | [] => ([], [])
  | c :: r =>
    if (decDigVal? c).isSome then
      let p := spanDigits r
      (c :: p.1, p.2)
    else ([], c :: r)

/-- Model of `str::replace` of every `\x7b\x7d` pair by
`\x7b\x7b\x7d\x7d` (the escaping step of `main`, src/src/main.rs line
241). -/
def escBraces : List Char → List Char
  | [] => []
  | [c] => [c]
  | c0 :: c1 :: r =>
    if c0 = '{' ∧ c1 = '}' then '{' :: '{' :: '}' :: '}' :: escBraces r
    else c0 :: escBraces (c1 :: r)

/-- Attempted match of the regex `%(0\d+)?[SP]` right after a `%`:
either `S`/`P` directly, or `0` followed by at least one digit and then
`S`/`P`.  Returns the captured padding group, the captured field letter,
and the rest of the input. -/
def matchPh (l : List Char) : Option (List Char × Char × List Char) :=
  match l with
  | [] => none
  | c :: r =>
    if c = 'S' then some ([], 'S', r)
    else if c = 'P' then some ([], 'P', r)
    else if c = '0' then
      let p := spanDigits r
      if p.1 = [] then none
      else
        match p.2 with
        | [] => none
        | c' :: r' =>
          if c' = 'S' then some ('0' :: p.1, 'S', r')
          else if c' = 'P' then some ('0' :: p.1, 'P', r')
          else none
    else none

theorem spanDigits_snd_length (l : List Char) :
    (spanDigits l).2.length ≤ l.length := by
  induction l with
  | nil => simp [spanDigits]
  | cons c r ih =>
    simp only [spanDigits]
    split
    · simpa using Nat.le_succ_of_le ih
    · simp

theorem matchPh_rest_length {l pad : List Char} {f : Char} {rest : List Char}
    (h : matchPh l = some (pad, f, rest)) : rest.length < l.length := by
  cases l with
  | nil => simp [matchPh] at h
  | cons c r =>
    simp only [matchPh] at h
    split_ifs at h with h1 h2 h3
    · obtain ⟨-, -, hr⟩ : pad = [] ∧ 'S' = f ∧ r = rest := by simpa using h
      subst hr
      simp
    · obtain ⟨-, -, hr⟩ : pad = [] ∧ 'P' = f ∧ r = rest := by simpa using h
      subst hr
      simp
    · have hlen : (spanDigits r).2.length ≤ r.length := spanDigits_snd_length r
      rcases hp : (spanDigits r).2 with _ | ⟨c', r'⟩ <;> rw [hp] at h hlen
      · simp at h
      · dsimp only at h
        simp only [List.length_cons] at hlen
        split_ifs at h
        · obtain ⟨-, -, hr⟩ : _ ∧ 'S' = f ∧ r' = rest := by simpa using h
          subst hr
          simp only [List.length_cons]
          omega
        · obtain ⟨-, -, hr⟩ : _ ∧ 'P' = f ∧ r' = rest := by simpa using h
          subst hr
          simp only [List.length_cons]
          omega

/-- Leftmost, non-overlapping substitution of `%(0\d+)?[SP]` by
`\x7b$f:$n\x7d` over the whole string, modelling
`re.replace_all(&escaped, ..)` in `main` (src/src/main.rs lines
242-243). -/
def substPh (l : List Char) : List Char :=
  match l with
  | [] => []
  | c :: r =>
    if c = '%' then
      match h : matchPh r with
      | some (pad, f, rest) =>
        '{' :: f :: ':' :: (pad ++ '}' :: substPh rest)
      | none => '%' :: substPh r
    else c :: substPh r
  termination_by l.length
  decreasing_by
  · simp only [List.length_cons]
    have := matchPh_rest_length h
    omega
  · simp
  · simp

example : escBraces ['a', '{', '}', 'b'] = ['a', '{', '{', '}', '}', 'b'] := rfl

/-- The three concrete shapes of a first token in an input line: the
`@index` form, the bare hexadecimal address form, and the `0x`-prefixed
address form. -/
inductive KeyTok where
  | index (n : Nat)
  | addrPlain (n : Nat)
  | addrPrefixed (n : Nat)
deriving DecidableEq, Repr

/-- The literal text of a first token. -/
def renderKey : KeyTok → List Char
  | .index n => '@' :: hexDigitsU n
  | .addrPlain n => hexDigitsU n
  | .addrPrefixed n => '0' :: 'x' :: hexDigitsU n

/-- The byte address a first token resolves to: the index form addresses
32-bit words, the address forms are literal byte addresses. -/
def resolveKey : KeyTok → Nat
  | .index n => n * 4
  | .addrPlain n => n
  | .addrPrefixed n => n

/-- The `key_str` location reported for a line with this first token. -/
def keyErr : KeyTok → SlmKey
  | .index n => .index n
  | .addrPlain n => .address n
  | .addrPrefixed n => .address n

/-- The format string prepared at setup (src/src/main.rs lines 240-244):
escape `\x7b\x7d` pairs, then substitute every `%(0\d+)?[SP]`
placeholder by a `strfmt`-style field. -/
def formatModel (user : List Char) : List Char := substPh (escBraces user)

/-- One parsed element of a `strfmt` template: a literal character, or a
field for key `S` or `P` with an optional zero-pad width. -/
inductive FmtItem where
  | lit (c : Char)
  | ph (key : Char) (pad : Option Nat)
deriving DecidableEq, Repr

/-- Key names accepted by the run: exactly `S` and `P`, the two
variables inserted into the map in `main` (src/src/main.rs lines
270-272); any other key is a formatting error. -/
def keyOf? : List Char → Option Char
  | ['S'] => some 'S'
  | ['P'] => some 'P'
  | _ => none

/-- Decimal value of a digit string (used for pad widths). -/
def decVal (l : List Char) : Nat :=
  l.foldl (fun a c => 10 * a + ((decDigVal? c).getD 0)) 0

/-- Modelled from the spec: the format-spec grammar of the external
`strfmt` crate, restricted to the specs this program's pipeline can
produce — the empty spec (plain decimal) and `0` followed by digits
(zero-pad to that width).  Anything else is treated as a format error. -/
def parseSpec (l : List Char) : Option (Option Nat) :=
  match l with
  | [] => some none
  | '0' :: ds =>
    if ds.all (fun c => (decDigVal? c).isSome) then some (some (decVal ds))
    else none
  | _ => none

theorem spanNe_snd_length (stops : List Char) (l : List Char) :
    (spanNe stops l).2.length ≤ l.length := by
  induction l with
  | nil => simp [spanNe]
  | cons c r ih =>
    simp only [spanNe]
    split
    · simp
    · simpa using Nat.le_succ_of_le ih

/-- Modelled from the spec: the field grammar of the external `strfmt`
crate, after an opening brace that does not start a `\x7b\x7b` escape —
a key name up to `:` or `\x7d`, then an optional spec up to `\x7d`.  An
unterminated field, an unknown key or an unsupported spec is a format
error.  Returns the parsed field and the input after the closing brace. -/
def parseField (r : List Char) : Option (FmtItem × List Char) :=
  match (spanNe [':', '}'] r).2 with
  | [] => none
  | c :: rest =>
    if c = '}' then
      match keyOf? (spanNe [':', '}'] r).1 with
      | some k => some (.ph k none, rest)
      | none => none
    else if c = ':' then
      match (spanNe ['}'] rest).2 with
      | [] => none
      | c2 :: rest2 =>
        if c2 = '}' then
          match keyOf? (spanNe [':', '}'] r).1, parseSpec (spanNe ['}'] rest).1 with
          | some k, some pad => some (.ph k pad, rest2)
          | _, _ => none
        else none
    else none

theorem parseField_rest_length {r : List Char} {it : FmtItem}
    {res : List Char} (h : parseField r = some (it, res)) :
    res.length < r.length := by
  have hns := spanNe_snd_length [':', '}'] r
  unfold parseField at h
  rcases hp : (spanNe [':', '}'] r).2 with _ | ⟨c, rest1⟩ <;> rw [hp] at h hns
  · simp at h
  · simp only [List.length_cons] at hns
    dsimp only at h
    split_ifs at h with hc1 hc2
    · rcases hk : keyOf? (spanNe [':', '}'] r).1 with _ | k <;> rw [hk] at h
      · simp at h
      · obtain ⟨-, hr⟩ : _ ∧ rest1 = res := by simpa using h
        subst hr
        omega
    · have hsp := spanNe_snd_length ['}'] rest1
      rcases hq : (spanNe ['}'] rest1).2 with _ | ⟨c2, rest2⟩ <;> rw [hq] at h hsp
      · simp at h
      · simp only [List.length_cons] at hsp
        dsimp only at h
        split_ifs at h with hc3
        · rcases hk : keyOf? (spanNe [':', '}'] r).1 with _ | k <;> rw [hk] at h
          · simp at h
          · rcases hpad : parseSpec (spanNe ['}'] rest1).1 with _ | pad <;>
              rw [hpad] at h
            · simp at h
            · obtain ⟨-, hr⟩ : _ ∧ rest2 = res := by simpa using h
              subst hr
              omega

/-- Modelled from the spec: template parsing of the external `strfmt`
crate.  `\x7b\x7b` and `\x7d\x7d` are brace escapes, `\x7b name : spec
\x7d` is a field, a lone `\x7d` or an unterminated or unknown field is a
format error.  Parsing depends only on the template, never on the
substituted values, so a malformed template fails for every bank. -/
def strfmtParse (l : List Char) : Option (List FmtItem) :=
  match l with
  | [] => some []
  | c :: r =>
    if c = '{' then
      match r with
      | [] => none
      | c2 :: r2 =>
        if c2 = '{' then (strfmtParse r2).map (FmtItem.lit '{' :: ·)
        else
          match h : parseField (c2 :: r2) with
          | some (it, rest) => (strfmtParse rest).map (it :: ·)
          | none => none
    else if c = '}' then
      match r with
      | [] => none
      | c2 :: r2 =>
        if c2 = '}' then (strfmtParse r2).map (FmtItem.lit '}' :: ·) else none
    else (strfmtParse r).map (FmtItem.lit c :: ·)
  termination_by l.length
  decreasing_by
  all_goals try (simp only [List.length_cons]; omega)
  all_goals have := parseField_rest_length h
  all_goals simp only [List.length_cons] at this ⊢
  all_goals omega

/-- Zero-padded decimal rendering of a value, as the `strfmt` crate
renders an unsigned integer under a `0N` spec. -/
def zeroPadDec (w v : Nat) : List Char :=
  List.replicate (w - (decDigits v).length) '0' ++ decDigits v

/-- Modelled from the spec: rendering of one parsed `strfmt` template
element with serial index `s` and parallel index `p`. -/
def renderItem (s p : Nat) : FmtItem → List Char
  | .lit c => [c]
  | .ph k pad =>
    let v := if k = 'S' then s else p
    match pad with
    | none => decDigits v
    | some w => zeroPadDec w v

/-- Modelled from the spec: rendering of a parsed `strfmt` template. -/
def strfmtRender (items : List FmtItem) (s p : Nat) : List Char :=
  (items.map (renderItem s p)).flatten

/-- Resolution of the prepared format string for bank `(s, p)`, the
`format.format(&vars)` call of `main` (src/src/main.rs line 273). -/
def resolveName (fmtstr : List Char) (s p : Nat) : Option (List Char) :=
  (strfmtParse fmtstr).map (strfmtRender · s p)

/-- The bank iteration order of the output loop: serial index outermost,
parallel index innermost. -/
def bankOrder (n_serial n_parallel : Nat) : List (Nat × Nat) :=
  ((List.range n_serial).map (fun s =>
    (List.range n_parallel).map (fun p => (s, p)))).flatten

/-- The output loop of `main` (src/src/main.rs lines 268-286) over a
list of banks: for each bank resolve the filename (a failure of the
`unwrap` aborts the run on the spot, with no file and no line written
for that bank or any later one), then emit the bank's `n_rows` lines.
Returns the files fully written before the abort, and whether the run
aborted. -/
def runBanks (fmtstr : List Char) (mem : List (Nat × List Char))
    (start_addr word_width n_parallel n_rows : Nat) :
    List (Nat × Nat) → List (List Char × List (List Char)) × Bool
  | [] => ([], false)
  | (s, p) :: rest =>
    match resolveName fmtstr s p with
    | none => ([], true)
    | some name =>
      let r := runBanks fmtstr mem start_addr word_width n_parallel n_rows rest
      ((name, bankLines mem start_addr word_width n_parallel n_rows s p) :: r.1,
       r.2)

/-- The whole conversion run after parameter extraction: every
`(i_ser, i_par)` bank in loop order. -/
def runMain (fmtstr : List Char) (mem : List (Nat × List Char))
    (start_addr word_width n_serial n_parallel n_rows : Nat) :
    List (List Char × List (List Char)) × Bool :=
  runBanks fmtstr mem start_addr word_width n_parallel n_rows
    (bankOrder n_serial n_parallel)

/-- Input SLM lines `@k w0`, `@(k+1) w1`, ... for a list of data words,
indices rendered in hexadecimal. -/
def inputLinesAux : Nat → List (List Char) → List (List Char)
  | _, [] => []
  | k, w :: ws => ('@' :: hexDigitsU k ++ ' ' :: w) :: inputLinesAux (k + 1) ws

/-- An input SLM file listing the given data words at word indices
`0, 1, 2, ...` in order. -/
def inputLines (ws : List (List Char)) : List (List Char) := inputLinesAux 0 ws

/-- The memory-map entries such a file parses to: word `i` at byte
address `4 * i`. -/
def entriesAux : Nat → List (List Char) → List (Nat × List Char)
  | _, [] => []
  | k, w :: ws => (k * 4, w) :: entriesAux (k + 1) ws

/-- The raw user-template tokens of the filename templating contract: a
literal character, or a `%S` / `%P` placeholder with an optional
zero-pad group `0` followed by digits. -/
inductive TItem where
  | lit (c : Char)
  | ph (key : Char) (pad : Option (List Char))
deriving DecidableEq, Repr

/-- The concrete text of one template token. -/
def renderT : TItem → List Char
  | .lit c => [c]
  | .ph k none => ['%', k]
  | .ph k (some ds) => '%' :: '0' :: ds ++ [k]

/-- The concrete text of a whole user template. -/
def renderTemplate (items : List TItem) : List Char :=
  (items.map renderT).flatten

/-- Well-formedness of a template token: literals avoid `%` and braces,
placeholders use key `S` or `P` with a nonempty digit group when
padding is requested. -/
def wfTItem : TItem → Prop
  | .lit c => c ≠ '%' ∧ c ≠ '{' ∧ c ≠ '}'
  | .ph k pad =>
    (k = 'S' ∨ k = 'P') ∧
      match pad with
      | none => True
      | some ds => ds ≠ [] ∧ ∀ c ∈ ds, (decDigVal? c).isSome

instance : DecidablePred wfTItem := by
  intro t
  cases t with
  | lit c => exact inferInstanceAs (Decidable (_ ∧ _))
  | ph k pad =>
    cases pad with
    | none => exact inferInstanceAs (Decidable (_ ∧ _))
    | some ds => exact inferInstanceAs (Decidable (_ ∧ _))

/-- The substituted text the claim expects for one template token at
bank `(s, p)`: literals unchanged, placeholders replaced by the index,
zero-padded to the requested width when one is given. -/
def outT (s p : Nat) : TItem → List Char
  | .lit c => [c]
  | .ph k pad =>
    let v := if k = 'S' then s else p
    match pad with
    | none => decDigits v
    | some ds => zeroPadDec (decVal ds) v

example : splitSpace ['@', '0', ' ', 'a', 'b'] = [['@', '0'], ['a', 'b']] := rfl

example :
    parseLine [] false ['@', '1', ' ', '1', '2', '3', '4', '5', '6', '7', '8'] =
      .ok (4, SlmKey.index 1, ['1', '2', '3', '4', '5', '6', '7', '8']) := rfl

example :
    parseLine [] false ['1', '0', ' ', '1', '2', '3', '4', '5', '6', '7'] =
      .error (.wordLength (SlmKey.address 16) []) := rfl

example :
    mem_from_file [] false [['@', '0', ' ', 'Z', 'Z', 'Z', 'Z', 'Z', 'Z', 'Z', 'Z']] =
      .ok [(0, ['Z', 'Z', 'Z', 'Z', 'Z', 'Z', 'Z', 'Z'])] := rfl

theorem hexDigitU_mem (n : Nat) : hexDigitU n ∈ hexDigitList := by
  by_cases h : n < 16
  · have hall : ∀ m, m < 16 → hexDigitU m ∈ hexDigitList := by decide
    exact hall n h
  · have hlen : hexDigitList.length ≤ n := by
      simp only [hexDigitList, List.length_cons, List.length_nil]
      omega
    unfold hexDigitU
    rw [List.getD_eq_default _ _ hlen]
    decide

theorem hexDigitsU_subset (n : Nat) : ∀ c ∈ hexDigitsU n, c ∈ hexDigitList := by
  induction n using Nat.strong_induction_on with
  | _ n ih =>
    rw [hexDigitsU]
    split
    · intro c hc
      rw [List.mem_singleton] at hc
      subst hc
      exact hexDigitU_mem n
    · intro c hc
      rcases List.mem_append.mp hc with h | h
      · exact ih (n / 16) (Nat.div_lt_self (by omega) (by omega)) c h
      · rw [List.mem_singleton] at h
        subst h
        exact hexDigitU_mem (n % 16)

theorem hexDigitsU_ne_nil (n : Nat) : hexDigitsU n ≠ [] := by
  rw [hexDigitsU]
  split <;> simp

theorem hexDigitsU_length_le :
    ∀ k n : Nat, 0 < k → n < 16 ^ k → (hexDigitsU n).length ≤ k := by
  intro k
  induction k with
  | zero => omega
  | succ k ih =>
    intro n _ hn
    rw [hexDigitsU]
    split
    · simp
    · rename_i h16
      have hk0 : 0 < k := by
        rcases Nat.eq_zero_or_pos k with rfl | hpos
        · rw [pow_one] at hn
          omega
        · exact hpos
      have hdiv : n / 16 < 16 ^ k := by
        rw [Nat.div_lt_iff_lt_mul (by omega)]
        calc n < 16 ^ (k + 1) := hn
          _ = 16 ^ k * 16 := by rw [pow_succ]
      have := ih (n / 16) hk0 hdiv
      simp only [List.length_append, List.length_cons, List.length_nil]
      omega

theorem hexDigVal?_hexDigitU : ∀ d, d < 16 → hexDigVal? (hexDigitU d) = some d := by
  decide

theorem hexValCore_append (a b : List Char) (acc : Nat) :
    hexValCore (a ++ b) acc =
      match hexValCore a acc with
      | some x => hexValCore b x
      | none => none := by
  induction a generalizing acc with
  | nil => simp [hexValCore]
  | cons c r ih =>
    simp only [List.cons_append, hexValCore]
    rcases h : hexDigVal? c with _ | d <;> simp [h, ih]

theorem hexValCore_hexDigitsU (n : Nat) :
    ∀ acc, hexValCore (hexDigitsU n) acc =
      some (acc * 16 ^ (hexDigitsU n).length + n) := by
  induction n using Nat.strong_induction_on with
  | _ n ih =>
    intro acc
    rw [hexDigitsU]
    split
    · rename_i h16
      simp only [hexValCore, hexDigVal?_hexDigitU n h16, List.length_cons,
        List.length_nil, pow_one]
      congr 1
      omega
    · rename_i h16
      have hdiv := ih (n / 16) (Nat.div_lt_self (by omega) (by omega)) acc
      rw [hexValCore_append, hdiv]
      have hd : hexDigVal? (hexDigitU (n % 16)) = some (n % 16) :=
        hexDigVal?_hexDigitU _ (Nat.mod_lt _ (by omega))
      simp only [hexValCore, hd, List.length_append, List.length_cons,
        List.length_nil]
      congr 1
      have hmod := Nat.div_add_mod n 16
      rw [pow_succ, ← mul_assoc]
      generalize acc * 16 ^ (hexDigitsU (n / 16)).length = Y
      omega

theorem hexVal?_hexDigitsU (n : Nat) : hexVal? (hexDigitsU n) = some n := by
  have hne := hexDigitsU_ne_nil n
  have hhead : ¬((hexDigitsU n).head? = some '+') := by
    rcases hl : hexDigitsU n with _ | ⟨c, r⟩
    · exact absurd hl hne
    · have hc : c ∈ hexDigitList := hexDigitsU_subset n c (by rw [hl]; simp)
      have : c ≠ '+' := by
        intro hplus
        subst hplus
        revert hc
        decide
      simp [this]
  unfold hexVal?
  rw [if_neg hhead, if_neg hne, hexValCore_hexDigitsU]
  simp

theorem fmt8X_length {n : Nat} (hn : n < 16 ^ 8) : (fmt8X n).length = 8 := by
  have := hexDigitsU_length_le 8 n (by omega) hn
  unfold fmt8X
  simp only [List.length_append, List.length_replicate]
  omega

theorem fmt8X_subset (n : Nat) : ∀ c ∈ fmt8X n, c ∈ hexDigitList := by
  intro c hc
  unfold fmt8X at hc
  rcases List.mem_append.mp hc with h | h
  · rw [List.eq_of_mem_replicate h]
    decide
  · exact hexDigitsU_subset n c h

theorem splitSpace_of_no_space (a : List Char) (h : ' ' ∉ a) :
    splitSpace a = [a] := by
  induction a with
  | nil => rfl
  | cons c r ih =>
    have hc : c ≠ ' ' := by
      rintro rfl
      exact h (List.mem_cons_self _ _)
    have hr : ' ' ∉ r := fun m => h (List.mem_cons_of_mem _ m)
    simp only [splitSpace, if_neg hc, ih hr]

theorem splitSpace_append (a b : List Char) (h : ' ' ∉ a) :
    splitSpace (a ++ ' ' :: b) = a :: splitSpace b := by
  induction a with
  | nil => simp [splitSpace]
  | cons c r ih =>
    have hc : c ≠ ' ' := by
      rintro rfl
      exact h (List.mem_cons_self _ _)
    have hr : ' ' ∉ r := fun m => h (List.mem_cons_of_mem _ m)
    simp only [List.cons_append, splitSpace, List.append_eq, if_neg hc, ih hr]

theorem renderKey_no_space (k : KeyTok) : ' ' ∉ renderKey k := by
  have hhex : ∀ n : Nat, ' ' ∉ hexDigitsU n := by
    intro n hmem
    have := hexDigitsU_subset n ' ' hmem
    revert this
    decide
  cases k with
  | index n =>
    intro hmem
    rcases List.mem_cons.mp hmem with h | h
    · exact absurd h (by decide)
    · exact hhex n h
  | addrPlain n => exact hhex n
  | addrPrefixed n =>
    intro hmem
    rcases List.mem_cons.mp hmem with h | h
    · exact absurd h (by decide)
    · rcases List.mem_cons.mp h with h2 | h2
      · exact absurd h2 (by decide)
      · exact hhex n h2

theorem trim0x_hexDigitsU (n : Nat) : trim0x (hexDigitsU n) = hexDigitsU n := by
  rcases hl : hexDigitsU n with _ | ⟨c0, _ | ⟨c1, r⟩⟩
  · rfl
  · rfl
  · have hc1 : c1 ∈ hexDigitList := by
      apply hexDigitsU_subset n
      rw [hl]
      exact List.mem_cons_of_mem _ (List.mem_cons_self _ _)
    have hne : ¬(c0 = '0' ∧ c1 = 'x') := by
      rintro ⟨-, rfl⟩
      revert hc1
      decide
    simp only [trim0x, if_neg hne]

theorem hexDigitsU_head_ne_at (n : Nat) : (hexDigitsU n).head? ≠ some '@' := by
  rcases hl : hexDigitsU n with _ | ⟨c, r⟩
  · simp
  · have hc : c ∈ hexDigitList := by
      apply hexDigitsU_subset n
      rw [hl]
      exact List.mem_cons_self _ _
    have : c ≠ '@' := by
      rintro rfl
      revert hc
      decide
    simp [this]

theorem parseLine_splits (path : List Char) (swap_endianness : Bool)
    (k : KeyTok) (w : List Char) (l : List Char) (rest : List (List Char))
    (hsplit : splitSpace l = renderKey k :: w :: rest) :
    parseLine path swap_endianness l =
      if (trim0x w).length = 8 then
        .ok (resolveKey k, keyErr k,
          if swap_endianness then swapE (trim0x w) else trim0x w)
      else .error (.wordLength (keyErr k) path) := by
  unfold parseLine
  rw [hsplit]
  cases k with
  | index n =>
    have h4 : n * 4 / 4 = n := Nat.mul_div_cancel n (by omega)
    simp [renderKey, hexVal?_hexDigitsU, mkKey, resolveKey, keyErr, h4]
  | addrPlain n =>
    simp [renderKey, hexDigitsU_head_ne_at n, trim0x_hexDigitsU,
      hexVal?_hexDigitsU, mkKey, resolveKey, keyErr]
  | addrPrefixed n =>
    simp [renderKey, trim0x, trim0x_hexDigitsU, hexVal?_hexDigitsU, mkKey,
      resolveKey, keyErr]

theorem parseLine_renderKey (path : List Char) (swap_endianness : Bool)
    (k : KeyTok) (w : List Char) (hw : ' ' ∉ w) :
    parseLine path swap_endianness (renderKey k ++ ' ' :: w) =
      if (trim0x w).length = 8 then
        .ok (resolveKey k, keyErr k,
          if swap_endianness then swapE (trim0x w) else trim0x w)
      else .error (.wordLength (keyErr k) path) := by
  apply parseLine_splits
  rw [splitSpace_append _ _ (renderKey_no_space k), splitSpace_of_no_space w hw]

theorem parseLine_extraToken (path : List Char) (swap_endianness : Bool)
    (k : KeyTok) (w x : List Char) (hw : ' ' ∉ w) (hx : ' ' ∉ x) :
    parseLine path swap_endianness (renderKey k ++ ' ' :: (w ++ ' ' :: x)) =
      if (trim0x w).length = 8 then
        .ok (resolveKey k, keyErr k,
          if swap_endianness then swapE (trim0x w) else trim0x w)
      else .error (.wordLength (keyErr k) path) := by
  refine parseLine_splits path swap_endianness k w _ [x] ?_
  rw [splitSpace_append _ _ (renderKey_no_space k), splitSpace_append _ _ hw,
    splitSpace_of_no_space x hx]

theorem parseLine_missingToken (path : List Char) (swap_endianness : Bool)
    (l : List Char) (h : (splitSpace l).length ≤ 1) :
    parseLine path swap_endianness l = .error .missingToken := by
  simp only [parseLine, List.getElem?_eq_none h]

/-- C2: the endianness swap reverses an 8-hex-character word at byte
(2-character) granularity, mapping byte groups `b0 b1 b2 b3` to
`b3 b2 b1 b0` while preserving the order inside each group, and applying
it twice returns the original word. -/
theorem c2_swap_byte_reversal_involution
    (b0a b0b b1a b1b b2a b2b b3a b3b : Char) :
    swapE [b0a, b0b, b1a, b1b, b2a, b2b, b3a, b3b] =
      [b3a, b3b, b2a, b2b, b1a, b1b, b0a, b0b] ∧
    swapE (swapE [b0a, b0b, b1a, b1b, b2a, b2b, b3a, b3b]) =
      [b0a, b0b, b1a, b1b, b2a, b2b, b3a, b3b] :=
  ⟨rfl, rfl⟩

/-- C4: for a line whose first token is a well-formed index or address
token and whose data token contains no space, the parser fails with a
FormatError naming the line's index or address and the source file
exactly when the data token after `0x`-stripping does not have length
eight; when it has length eight the line is accepted with no length
error. -/
theorem c4_word_length_validation (path : List Char) (swap_endianness : Bool)
    (k : KeyTok) (w : List Char) (hw : ' ' ∉ w) :
    ((trim0x w).length ≠ 8 →
      parseLine path swap_endianness (renderKey k ++ ' ' :: w) =
        .error (.wordLength (keyErr k) path)) ∧
    ((trim0x w).length = 8 →
      parseLine path swap_endianness (renderKey k ++ ' ' :: w) =
        .ok (resolveKey k, keyErr k,
          if swap_endianness then swapE (trim0x w) else trim0x w)) := by
  constructor <;> intro h <;>
    rw [parseLine_renderKey path swap_endianness k w hw] <;> simp [h]

theorem c4_word_length_validation_witness :
    (' ' ∉ (['1', '2', '3', '4', '5', '6', '7'] : List Char)) ∧
    parseLine [] false (renderKey (.index 0) ++ ' ' :: ['1', '2', '3', '4', '5', '6', '7']) =
      .error (.wordLength (.index 0) []) ∧
    parseLine [] false (renderKey (.index 0) ++ ' ' :: ['1', '2', '3', '4', '5', '6', '7', '8']) =
      .ok (0, .index 0, ['1', '2', '3', '4', '5', '6', '7', '8']) := by
  refine ⟨by decide, ?_, ?_⟩
  · exact (c4_word_length_validation [] false (.index 0)
      ['1', '2', '3', '4', '5', '6', '7'] (by decide)).1 (by decide)
  · have := (c4_word_length_validation [] false (.index 0)
      ['1', '2', '3', '4', '5', '6', '7', '8'] (by decide)).2 (by decide)
    rw [this]
    rfl

/-- C5: two otherwise well-formed lines whose first tokens resolve to
the same byte address — the `@index` form resolving to `index * 4`, the
address forms to the literal value — make parsing fail with a
DuplicateEntryError that names the second line's token in the form it
was encountered in, together with the source file. -/
theorem c5_duplicate_detection (path : List Char) (swap_endianness : Bool)
    (k1 k2 : KeyTok) (w1 w2 : List Char)
    (hw1 : ' ' ∉ w1) (hw2 : ' ' ∉ w2)
    (hl1 : (trim0x w1).length = 8) (hl2 : (trim0x w2).length = 8)
    (heq : resolveKey k1 = resolveKey k2) :
    mem_from_file path swap_endianness
      [renderKey k1 ++ ' ' :: w1, renderKey k2 ++ ' ' :: w2] =
      .error (.duplicate (keyErr k2) path) := by
  have h1 := parseLine_renderKey path swap_endianness k1 w1 hw1
  have h2 := parseLine_renderKey path swap_endianness k2 w2 hw2
  rw [if_pos hl1] at h1
  rw [if_pos hl2] at h2
  simp only [mem_from_file, memFromLines, h1, h2]
  simp [mlookup, heq]

theorem c5_duplicate_detection_witness :
    resolveKey (.index 4) = resolveKey (.addrPrefixed 16) ∧
    mem_from_file [] false
      [renderKey (.index 4) ++ ' ' :: ['0', '0', '0', '0', '1', '1', '1', '1'],
       renderKey (.addrPrefixed 16) ++ ' ' :: ['2', '2', '2', '2', '3', '3', '3', '3']] =
      .error (.duplicate (.address 16) []) := by
  constructor
  · decide
  · exact c5_duplicate_detection [] false (.index 4) (.addrPrefixed 16)
      ['0', '0', '0', '0', '1', '1', '1', '1']
      ['2', '2', '2', '2', '3', '3', '3', '3']
      (by decide) (by decide) (by decide) (by decide) (by decide)

/-- C7 counterexample: a data token of the correct length is accepted
even when it contains no hexadecimal characters at all, and a line with
three tokens is accepted with the extra token ignored — neither
malformed input makes parsing fail. -/
theorem c7_counterexample :
    mem_from_file [] false
      [['@', '0', ' ', 'Z', 'Z', 'Z', 'Z', 'Z', 'Z', 'Z', 'Z']] =
      .ok [(0, ['Z', 'Z', 'Z', 'Z', 'Z', 'Z', 'Z', 'Z'])] ∧
    mem_from_file [] false
      [['@', '0', ' ', '1', '2', '3', '4', '5', '6', '7', '8', ' ', '9']] =
      .ok [(0, ['1', '2', '3', '4', '5', '6', '7', '8'])] :=
  ⟨rfl, rfl⟩

/-- C7 as amended: a line with fewer than two space-separated tokens
fails (with the token-access panic, which carries no location); a data
token whose `0x`-stripped length differs from eight fails with a located
FormatError; but the data token is never checked for hexadecimal
characters — any token of stripped length eight is accepted — and
tokens beyond the second are ignored rather than rejected. -/
theorem c7_amended_malformed_lines (path : List Char) (swap_endianness : Bool) :
    (∀ l, (splitSpace l).length ≤ 1 →
        parseLine path swap_endianness l = .error .missingToken) ∧
    (∀ (k : KeyTok) (w : List Char), ' ' ∉ w → (trim0x w).length ≠ 8 →
        parseLine path swap_endianness (renderKey k ++ ' ' :: w) =
          .error (.wordLength (keyErr k) path)) ∧
    (∀ (k : KeyTok) (w : List Char), ' ' ∉ w → (trim0x w).length = 8 →
        parseLine path swap_endianness (renderKey k ++ ' ' :: w) =
          .ok (resolveKey k, keyErr k,
            if swap_endianness then swapE (trim0x w) else trim0x w)) ∧
    (∀ (k : KeyTok) (w x : List Char), ' ' ∉ w → ' ' ∉ x →
        (trim0x w).length = 8 →
        parseLine path swap_endianness (renderKey k ++ ' ' :: (w ++ ' ' :: x)) =
          .ok (resolveKey k, keyErr k,
            if swap_endianness then swapE (trim0x w) else trim0x w)) := by
  refine ⟨?_, ?_, ?_, ?_⟩
  · intro l h
    exact parseLine_missingToken path swap_endianness l h
  · intro k w hw h
    rw [parseLine_renderKey path swap_endianness k w hw, if_neg h]
  · intro k w hw h
    rw [parseLine_renderKey path swap_endianness k w hw, if_pos h]
  · intro k w x hw hx h
    rw [parseLine_extraToken path swap_endianness k w x hw hx, if_pos h]

theorem c7_amended_malformed_lines_witness :
    parseLine [] false ['a', 'b'] = .error .missingToken ∧
    parseLine [] false
        (renderKey (.addrPlain 0) ++ ' ' :: ['Z', 'Z', 'Z', 'Z', 'Z', 'Z', 'Z', 'Z']) =
      .ok (0, .address 0, ['Z', 'Z', 'Z', 'Z', 'Z', 'Z', 'Z', 'Z']) := by
  constructor
  · exact (c7_amended_malformed_lines [] false).1 ['a', 'b'] (by decide)
  · have := (c7_amended_malformed_lines [] false).2.2.1 (.addrPlain 0)
      ['Z', 'Z', 'Z', 'Z', 'Z', 'Z', 'Z', 'Z'] (by decide) (by decide)
    rw [this]
    rfl

/-- C6: an address absent from the loaded memory map is emitted as the
zero word wherever referenced; with no input file the parser returns the
empty map, and then every sub-word of every emitted line is the zero
word. -/
theorem c6_default_fill :
    (∀ (mem : List (Nat × List Char)) (start_addr idx : Nat),
        mlookup (start_addr + idx * 4) mem = none →
        mem_val mem start_addr idx = zeros8) ∧
    (∀ (path : List Char) (swap_endianness : Bool),
        loadMem none path swap_endianness = .ok []) ∧
    (∀ start_addr word_width n_parallel n_rows i_ser i_par i_word : Nat,
        lineChars [] start_addr word_width n_parallel n_rows i_ser i_par i_word =
          '@' :: fmt8X i_word ++ ' ' ::
            (List.replicate (words_per_line word_width) zeros8).flatten ++ ['\n']) := by
  refine ⟨?_, ?_, ?_⟩
  · intro mem s i h
    unfold mem_val
    rw [h]
    rfl
  · intro path sw
    rfl
  · intro s ww np nr a b c
    unfold lineChars
    have hconst : ∀ L : List Nat,
        L.map (fun i_sw => mem_val [] s (fetchIdx ww np nr a b c + i_sw)) =
          List.replicate L.length zeros8 := by
      intro L
      induction L with
      | nil => rfl
      | cons x t ih => simp [mem_val, mlookup, ih, List.replicate_succ]
    rw [hconst, List.length_reverse, List.length_range]

theorem c6_default_fill_witness :
    mlookup (0 + 3 * 4) [] = none ∧
    mem_val [] 0 3 = zeros8 ∧
    loadMem none [] false = .ok [] :=
  ⟨rfl, c6_default_fill.1 [] 0 3 rfl, c6_default_fill.2.1 [] false⟩

theorem mixed_radix_pair (B x y x' y' : Nat) (hB : 0 < B) (hx : x < B)
    (hx' : x' < B) (h : x + B * y = x' + B * y') : x = x' ∧ y = y' := by
  have h1 : (x + B * y) % B = (x' + B * y') % B := by rw [h]
  rw [Nat.add_mul_mod_self_left, Nat.add_mul_mod_self_left,
    Nat.mod_eq_of_lt hx, Nat.mod_eq_of_lt hx'] at h1
  have h2 : (x + B * y) / B = (x' + B * y') / B := by rw [h]
  rw [Nat.add_mul_div_left _ _ hB, Nat.add_mul_div_left _ _ hB,
    Nat.div_eq_of_lt hx, Nat.div_eq_of_lt hx'] at h2
  simp only [Nat.zero_add] at h2
  exact ⟨h1, h2⟩

theorem fetchIdx_form (word_width n_parallel n_rows a b c d : Nat) :
    fetchIdx word_width n_parallel n_rows a b c + d =
      d + words_per_line word_width *
        (b + n_parallel * (c + n_rows * a)) := by
  unfold fetchIdx words_in_parallel
  ring

/-- C8: with all geometry parameters positive, the map from in-range
tuples `(i_ser, i_par, i_word, i_sw)` to the fetched logical index
`idx + i_sw` is injective, and every index below
`n_serial * n_parallel * n_rows * words_per_line` is reached, so each
logical word in that range is emitted exactly once across the output
streams. -/
theorem c8_interleave_bijection (word_width n_parallel n_serial n_rows : Nat)
    (hW : 0 < words_per_line word_width) (hpar : 0 < n_parallel)
    (hrows : 0 < n_rows) (hser : 0 < n_serial) :
    (∀ a b c d a' b' c' d' : Nat,
        a < n_serial → b < n_parallel → c < n_rows →
        d < words_per_line word_width →
        a' < n_serial → b' < n_parallel → c' < n_rows →
        d' < words_per_line word_width →
        fetchIdx word_width n_parallel n_rows a b c + d =
          fetchIdx word_width n_parallel n_rows a' b' c' + d' →
        a = a' ∧ b = b' ∧ c = c' ∧ d = d') ∧
    (∀ m, m < n_serial * n_parallel * n_rows * words_per_line word_width →
        ∃ a b c d, a < n_serial ∧ b < n_parallel ∧ c < n_rows ∧
          d < words_per_line word_width ∧
          fetchIdx word_width n_parallel n_rows a b c + d = m) := by
  constructor
  · intro a b c d a' b' c' d' _ hb hc hd _ hb' hc' hd' heq
    rw [fetchIdx_form, fetchIdx_form] at heq
    obtain ⟨hdd, heq1⟩ := mixed_radix_pair _ _ _ _ _ hW hd hd' heq
    obtain ⟨hbb, heq2⟩ := mixed_radix_pair _ _ _ _ _ hpar hb hb' heq1
    obtain ⟨hcc, haa⟩ := mixed_radix_pair _ _ _ _ _ hrows hc hc' heq2
    exact ⟨haa, hbb, hcc, hdd⟩
  · intro m hm
    refine ⟨m / words_per_line word_width / n_parallel / n_rows,
      m / words_per_line word_width % n_parallel,
      m / words_per_line word_width / n_parallel % n_rows,
      m % words_per_line word_width, ?_, Nat.mod_lt _ hpar, Nat.mod_lt _ hrows,
      Nat.mod_lt _ hW, ?_⟩
    · have hpos : 0 < words_per_line word_width * (n_parallel * n_rows) := by
        positivity
      rw [Nat.div_div_eq_div_mul, Nat.div_div_eq_div_mul,
        Nat.div_lt_iff_lt_mul hpos]
      calc m < n_serial * n_parallel * n_rows * words_per_line word_width := hm
        _ = n_serial * (words_per_line word_width * (n_parallel * n_rows)) := by
          ring
    · rw [fetchIdx_form]
      conv_rhs =>
        rw [← Nat.mod_add_div m (words_per_line word_width),
          ← Nat.mod_add_div (m / words_per_line word_width) n_parallel,
          ← Nat.mod_add_div (m / words_per_line word_width / n_parallel) n_rows]

theorem c8_interleave_bijection_witness :
    ∃ a b c d, a < 2 ∧ b < 2 ∧ c < 2 ∧ d < words_per_line 64 ∧
      fetchIdx 64 2 2 a b c + d = 5 :=
  (c8_interleave_bijection 64 2 2 2 (by decide) (by decide) (by decide)
    (by decide)).2 5 (by decide)

/-- C1: for every geometry and memory map, the emitted line for
`(i_ser, i_par, i_word)` is `@`, the row index as an 8-hex-digit
uppercase number, a space, and the concatenation without separator, for
`i_sw` from `words_per_line - 1` down to `0`, of the words fetched at
logical index `idx + i_sw` with `idx = i_par*words_per_line +
words_in_parallel*i_word + words_in_parallel*n_rows*i_ser`; in
particular with `n_rows = 2, n_serial = 2, n_parallel = 2, word_width =
32, start_addr = 0`, the `(i_ser = 1, i_par = 0)` file's row 0 fetches
`idx = 4`, that is byte address `0x10`. -/
theorem c1_emitted_line (mem : List (Nat × List Char))
    (start_addr word_width n_parallel n_rows i_ser i_par i_word : Nat)
    (hrow : i_word < n_rows) (hfits : i_word < 16 ^ 8) :
    (bankLines mem start_addr word_width n_parallel n_rows i_ser i_par)[i_word]? =
      some ('@' :: fmt8X i_word ++ ' ' ::
        ((List.range (words_per_line word_width)).reverse.map (fun i_sw =>
          mem_val mem start_addr
            (i_par * words_per_line word_width +
              words_in_parallel word_width n_parallel * i_word +
              words_in_parallel word_width n_parallel * n_rows * i_ser +
              i_sw))).flatten ++ ['\n']) ∧
    (fmt8X i_word).length = 8 ∧
    (∀ c ∈ fmt8X i_word, c ∈ hexDigitList) ∧
    fetchIdx 32 2 2 1 0 0 = 4 ∧
    (bankLines [(16, ['D', 'E', 'A', 'D', 'B', 'E', 'E', 'F'])] 0 32 2 2 1 0)[0]? =
      some ('@' :: fmt8X 0 ++ ' ' ::
        ['D', 'E', 'A', 'D', 'B', 'E', 'E', 'F'] ++ ['\n']) := by
  refine ⟨?_, fmt8X_length hfits, fmt8X_subset i_word, rfl, ?_⟩
  · unfold bankLines
    rw [List.getElem?_map, List.getElem?_range hrow]
    rfl
  · rfl

theorem c1_emitted_line_witness :
    (bankLines [(16, ['D', 'E', 'A', 'D', 'B', 'E', 'E', 'F'])] 0 32 2 2 1 0)[0]? =
      some ('@' :: fmt8X 0 ++ ' ' ::
        ['D', 'E', 'A', 'D', 'B', 'E', 'E', 'F'] ++ ['\n']) :=
  (c1_emitted_line [(16, ['D', 'E', 'A', 'D', 'B', 'E', 'E', 'F'])]
    0 32 2 2 1 0 0 (by decide) (Nat.pos_pow_of_pos 8 (by decide))).2.2.2.2

theorem mlookup_append (x : Nat) (a b : List (Nat × List Char)) :
    mlookup x (a ++ b) =
      match mlookup x a with
      | some v => some v
      | none => mlookup x b := by
  induction a with
  | nil => simp [mlookup]
  | cons p t ih =>
    obtain ⟨ka, va⟩ := p
    simp only [List.cons_append, mlookup]
    split <;> simp [ih]

theorem memFromLines_inputLinesAux (path : List Char) (ws : List (List Char)) :
    ∀ (k : Nat) (mem0 : List (Nat × List Char)),
      (∀ w ∈ ws, ' ' ∉ w ∧ trim0x w = w ∧ w.length = 8) →
      (∀ j, j < ws.length → mlookup ((k + j) * 4) mem0 = none) →
      memFromLines path false (inputLinesAux k ws) mem0 =
        .ok (mem0 ++ entriesAux k ws) := by
  induction ws with
  | nil =>
    intro k mem0 _ _
    simp [inputLinesAux, entriesAux, memFromLines]
  | cons w t ih =>
    intro k mem0 hw hdisj
    obtain ⟨hsp, htr, hlen⟩ := hw w (List.mem_cons_self _ _)
    have hline : parseLine path false ('@' :: hexDigitsU k ++ ' ' :: w) =
        .ok (k * 4, .index k, w) := by
      have hr := parseLine_renderKey path false (.index k) w hsp
      rw [if_pos (by rw [htr]; exact hlen)] at hr
      simpa [renderKey, resolveKey, keyErr, htr, List.cons_append] using hr
    have hnone : mlookup (k * 4) mem0 = none := by
      have := hdisj 0 (by simp)
      simpa using this
    simp only [inputLinesAux, memFromLines, hline, hnone, Option.isSome_none,
      Bool.false_eq_true, if_false]
    rw [ih (k + 1) (mem0 ++ [(k * 4, w)])
      (fun x hx => hw x (List.mem_cons_of_mem _ hx))
      ?_]
    · simp [entriesAux, List.append_assoc]
    · intro j hj
      rw [mlookup_append]
      have h1 : mlookup ((k + 1 + j) * 4) mem0 = none := by
        have := hdisj (j + 1) (by simp only [List.length_cons]; omega)
        have harith : k + (j + 1) = k + 1 + j := by omega
        rwa [harith] at this
      rw [h1]
      simp only [mlookup]
      rw [if_neg (by omega)]

theorem mlookup_entriesAux (ws : List (List Char)) :
    ∀ k i, i < ws.length →
      mlookup ((k + i) * 4) (entriesAux k ws) = ws[i]? := by
  induction ws with
  | nil =>
    intro k i hi
    simp at hi
  | cons w t ih =>
    intro k i hi
    simp only [entriesAux, mlookup]
    cases i with
    | zero => simp
    | succ j =>
      rw [if_neg (by omega)]
      have harith : k + (j + 1) = k + 1 + j := by omega
      rw [harith, ih (k + 1) j (by simp only [List.length_cons] at hi; omega)]
      simp

/-- C3: a single-bank conversion (`n_serial = 1`, `n_parallel = 1`,
`word_width = 32`, no swap, `start_addr = 0`) of an input file listing
8-character words at word indices `0, 1, ...` with `n_rows` equal to the
row count reproduces each line's data word byte-for-byte; only the
address label changes format (`@hex` index to `@%08X` of the same
index). -/
theorem c3_single_bank_roundtrip (ws : List (List Char)) (path : List Char)
    (hw : ∀ w ∈ ws, ' ' ∉ w ∧ trim0x w = w ∧ w.length = 8) :
    ∃ mem, mem_from_file path false (inputLines ws) = .ok mem ∧
      ∀ i w, ws[i]? = some w →
        (bankLines mem 0 32 1 ws.length 0 0)[i]? =
          some ('@' :: fmt8X i ++ ' ' :: w ++ ['\n']) := by
  refine ⟨entriesAux 0 ws, ?_, ?_⟩
  · unfold mem_from_file inputLines
    rw [memFromLines_inputLinesAux path ws 0 [] hw (fun j _ => rfl)]
    rfl
  · intro i w hi
    have hilen : i < ws.length := by
      by_contra hc
      rw [List.getElem?_eq_none (by omega)] at hi
      exact Option.noConfusion hi
    unfold bankLines
    rw [List.getElem?_map, List.getElem?_range hilen]
    have hwpl : words_per_line 32 = 1 := rfl
    have hfetch : fetchIdx 32 1 ws.length 0 0 i + 0 = i := by
      simp [fetchIdx, words_in_parallel, words_per_line]
    have hmv : mem_val (entriesAux 0 ws) 0 (fetchIdx 32 1 ws.length 0 0 i + 0) = w := by
      unfold mem_val
      rw [hfetch]
      have := mlookup_entriesAux ws 0 i hilen
      rw [Nat.zero_add] at this
      rw [Nat.zero_add, this, hi]
      rfl
    have hr1 : (List.range 1).reverse = [0] := rfl
    simp only [lineChars, hwpl, hr1, List.map_cons, List.map_nil,
      List.flatten_cons, List.flatten_nil, List.append_nil, hmv,
      Option.map_some']

theorem bankOrder_length (n_serial n_parallel : Nat) :
    (bankOrder n_serial n_parallel).length = n_serial * n_parallel := by
  induction n_serial with
  | zero => simp [bankOrder]
  | succ n ih =>
    unfold bankOrder at *
    rw [List.range_succ, List.map_append, List.flatten_append]
    simp only [List.map_cons, List.map_nil, List.flatten_cons, List.flatten_nil,
      List.length_append, ih, List.append_nil, List.length_map,
      List.length_range]
    ring

theorem runBanks_halts_on_bad_template (fmtstr : List Char)
    (mem : List (Nat × List Char))
    (start_addr word_width n_parallel n_rows : Nat)
    (banks : List (Nat × Nat)) (hne : banks ≠ [])
    (hfail : strfmtParse fmtstr = none) :
    runBanks fmtstr mem start_addr word_width n_parallel n_rows banks =
      ([], true) := by
  cases banks with
  | nil => exact absurd rfl hne
  | cons b rest =>
    obtain ⟨s, p⟩ := b
    simp [runBanks, resolveName, hfail]

/-- C9: a malformed filename template (one the template parser rejects)
makes the whole run fail with no file and no output line produced — the
failure happens at the first bank's filename resolution, before any row
is generated; and whenever a bank's filename does resolve, it is fully
resolved before that bank's lines are attached. -/
theorem c9_template_failure (user : List Char) (mem : List (Nat × List Char))
    (start_addr word_width n_serial n_parallel n_rows : Nat) :
    (0 < n_serial → 0 < n_parallel →
      strfmtParse (formatModel user) = none →
      runMain (formatModel user) mem start_addr word_width n_serial
        n_parallel n_rows = ([], true)) ∧
    (∀ s p rest name,
      resolveName (formatModel user) s p = some name →
      runBanks (formatModel user) mem start_addr word_width n_parallel n_rows
          ((s, p) :: rest) =
        ((name, bankLines mem start_addr word_width n_parallel n_rows s p) ::
          (runBanks (formatModel user) mem start_addr word_width n_parallel
            n_rows rest).1,
         (runBanks (formatModel user) mem start_addr word_width n_parallel
            n_rows rest).2)) := by
  constructor
  · intro hs hp hfail
    unfold runMain
    refine runBanks_halts_on_bad_template _ _ _ _ _ _ _ ?_ hfail
    intro hnil
    have := bankOrder_length n_serial n_parallel
    rw [hnil] at this
    simp at this
    rcases this with h | h <;> omega
  · intro s p rest name hname
    simp [runBanks, hname]

theorem c9_template_failure_witness :
    strfmtParse (formatModel ['a', '{', 'b']) = none ∧
    runMain (formatModel ['a', '{', 'b']) [] 0 32 1 1 1 = ([], true) := by
  have hfail : strfmtParse (formatModel ['a', '{', 'b']) = none := by
    simp [formatModel, escBraces, substPh, matchPh, spanDigits, strfmtParse,
      parseField, spanNe, keyOf?]
  exact ⟨hfail,
    (c9_template_failure ['a', '{', 'b'] [] 0 32 1 1 1).1 (by decide)
      (by decide) hfail⟩

/-- The `strfmt`-style field text a template token is rewritten to by
the regex substitution. -/
def itemFmt : TItem → List Char
  | .lit c => [c]
  | .ph k none => ['{', k, ':', '}']
  | .ph k (some ds) => '{' :: k :: ':' :: '0' :: ds ++ ['}']

/-- The parsed field a well-formed template token ends up as. -/
def toFmtItem : TItem → FmtItem
  | .lit c => .lit c
  | .ph k none => .ph k none
  | .ph k (some ds) => .ph k (some (decVal ds))

theorem decDig_isSome_facts (c : Char) (h : (decDigVal? c).isSome) :
    c ≠ '{' ∧ c ≠ '}' ∧ c ≠ '%' ∧ c ≠ ':' ∧ decDigVal? c ≠ none ∧
      c ≠ 'S' ∧ c ≠ 'P' := by
  refine ⟨?_, ?_, ?_, ?_, ?_, ?_, ?_⟩ <;> first
    | (rintro rfl; revert h; decide)
    | (intro hn; rw [hn] at h; exact absurd h (by decide))

theorem spanDigits_clean_append (ds : List Char)
    (hds : ∀ c ∈ ds, (decDigVal? c).isSome) (x : Char)
    (hx : decDigVal? x = none) (r : List Char) :
    spanDigits (ds ++ x :: r) = (ds, x :: r) := by
  induction ds with
  | nil =>
    simp [spanDigits, hx]
  | cons c t ih =>
    have hc := hds c (List.mem_cons_self _ _)
    have ht : ∀ y ∈ t, (decDigVal? y).isSome :=
      fun y hy => hds y (List.mem_cons_of_mem _ hy)
    simp only [List.cons_append, spanDigits, hc, if_true, List.append_eq,
      ih ht]

theorem spanNe_clean_append (stops a : List Char)
    (ha : ∀ c ∈ a, c ∉ stops) (x : Char) (hx : x ∈ stops) (r : List Char) :
    spanNe stops (a ++ x :: r) = (a, x :: r) := by
  induction a with
  | nil =>
    simp [spanNe, hx]
  | cons c t ih =>
    have hc := ha c (List.mem_cons_self _ _)
    have ht : ∀ y ∈ t, y ∉ stops := fun y hy => ha y (List.mem_cons_of_mem _ hy)
    simp only [List.cons_append, spanNe, if_neg hc, List.append_eq, ih ht]

theorem escBraces_of_no_brace (l : List Char) (h : '{' ∉ l) :
    escBraces l = l := by
  induction l with
  | nil => rfl
  | cons c r ih =>
    cases r with
    | nil => rfl
    | cons c1 r1 =>
      have hc : c ≠ '{' := by
        rintro rfl
        exact h (List.mem_cons_self _ _)
      have hr : '{' ∉ c1 :: r1 := fun m => h (List.mem_cons_of_mem _ m)
      simp only [escBraces]
      rw [if_neg (by rintro ⟨h1, -⟩; exact hc h1), ih hr]

theorem renderT_no_brace (it : TItem) (h : wfTItem it) : '{' ∉ renderT it := by
  cases it with
  | lit c =>
    obtain ⟨-, hc, -⟩ := h
    intro hmem
    simp only [renderT] at hmem
    rw [List.mem_singleton] at hmem
    exact hc hmem.symm
  | ph k pad =>
    obtain ⟨hk, hpad⟩ := h
    cases pad with
    | none =>
      rcases hk with rfl | rfl <;> decide
    | some ds =>
      obtain ⟨-, hdig⟩ := hpad
      intro hmem
      rw [show renderT (.ph k (some ds)) = '%' :: '0' :: (ds ++ [k]) from rfl]
        at hmem
      rcases List.mem_cons.mp hmem with h1 | h1
      · exact absurd h1 (by decide)
      · rcases List.mem_cons.mp h1 with h2 | h2
        · exact absurd h2 (by decide)
        · rcases List.mem_append.mp h2 with h3 | h3
          · exact (decDig_isSome_facts '{' (hdig '{' h3)).1 rfl
          · rw [List.mem_singleton] at h3
            rcases hk with rfl | rfl <;> exact absurd h3 (by decide)

theorem renderTemplate_no_brace (items : List TItem)
    (hwf : ∀ it ∈ items, wfTItem it) : '{' ∉ renderTemplate items := by
  intro hmem
  unfold renderTemplate at hmem
  obtain ⟨l, hl, hcl⟩ := List.mem_flatten.mp hmem
  obtain ⟨it, hit, rfl⟩ := List.mem_map.mp hl
  exact renderT_no_brace it (hwf it hit) hcl

theorem substPh_renderTemplate (items : List TItem)
    (hwf : ∀ it ∈ items, wfTItem it) :
    substPh (renderTemplate items) = (items.map itemFmt).flatten := by
  induction items with
  | nil => simp [renderTemplate, substPh]
  | cons it t ih =>
    have hwf_it := hwf it (List.mem_cons_self _ _)
    have iht := ih (fun x hx => hwf x (List.mem_cons_of_mem _ hx))
    cases it with
    | lit c =>
      obtain ⟨hpc, -, -⟩ := hwf_it
      have hrt : renderTemplate (.lit c :: t) = c :: renderTemplate t := by
        simp [renderTemplate, renderT]
      rw [hrt]
      simp only [substPh]
      rw [if_neg hpc, iht]
      simp [itemFmt]
    | ph k pad =>
      obtain ⟨hk, hpad⟩ := hwf_it
      cases pad with
      | none =>
        have hrt : renderTemplate (.ph k none :: t) =
            '%' :: (k :: renderTemplate t) := by
          simp [renderTemplate, renderT]
        have hm : matchPh (k :: renderTemplate t) =
            some ([], k, renderTemplate t) := by
          rcases hk with rfl | rfl <;> simp [matchPh]
        rw [hrt]
        simp only [substPh]
        rw [if_pos trivial]
        split
        · rename_i pad f rest heq
          rw [hm] at heq
          obtain ⟨rfl, rfl, rfl⟩ : [] = pad ∧ k = f ∧ renderTemplate t = rest := by
            simpa using heq
          rw [iht]
          simp [itemFmt]
        · rename_i heq
          rw [hm] at heq
          exact absurd heq (by simp)
      | some ds =>
        obtain ⟨hne, hdig⟩ := hpad
        have hrt : renderTemplate (.ph k (some ds) :: t) =
            '%' :: '0' :: (ds ++ (k :: renderTemplate t)) := by
          simp [renderTemplate, renderT]
        have hspan : spanDigits (ds ++ k :: renderTemplate t) =
            (ds, k :: renderTemplate t) := by
          refine spanDigits_clean_append ds hdig k ?_ _
          rcases hk with rfl | rfl <;> decide
        have hm : matchPh ('0' :: (ds ++ k :: renderTemplate t)) =
            some ('0' :: ds, k, renderTemplate t) := by
          rcases hk with rfl | rfl <;> simp [matchPh, hspan, hne]
        rw [hrt]
        simp only [substPh]
        rw [if_pos trivial]
        split
        · rename_i pad f rest heq
          rw [hm] at heq
          obtain ⟨rfl, rfl, rfl⟩ :
              '0' :: ds = pad ∧ k = f ∧ renderTemplate t = rest := by
            simpa using heq
          rw [iht]
          simp [itemFmt, List.append_assoc]
        · rename_i heq
          rw [hm] at heq
          exact absurd heq (by simp)

theorem parseField_plain (k : Char) (hk : k = 'S' ∨ k = 'P') (X : List Char) :
    parseField (k :: ':' :: '}' :: X) = some (.ph k none, X) := by
  have hspan : spanNe [':', '}'] (k :: ':' :: '}' :: X) =
      ([k], ':' :: '}' :: X) := by
    rcases hk with rfl | rfl <;> simp [spanNe]
  have hspan2 : spanNe ['}'] ('}' :: X) = ([], '}' :: X) := by
    simp [spanNe]
  have hkey : keyOf? [k] = some k := by
    rcases hk with rfl | rfl <;> rfl
  unfold parseField
  rw [hspan]
  simp [hspan2, hkey, parseSpec]

theorem parseField_padded (k : Char) (hk : k = 'S' ∨ k = 'P')
    (ds : List Char) (hne : ds ≠ [])
    (hdig : ∀ c ∈ ds, (decDigVal? c).isSome) (X : List Char) :
    parseField (k :: ':' :: '0' :: (ds ++ '}' :: X)) =
      some (.ph k (some (decVal ds)), X) := by
  have hspan : spanNe [':', '}'] (k :: ':' :: '0' :: (ds ++ '}' :: X)) =
      ([k], ':' :: ('0' :: (ds ++ '}' :: X))) := by
    rcases hk with rfl | rfl <;> simp [spanNe]
  have hclean : ∀ c ∈ ds, c ∉ (['}'] : List Char) := by
    intro c hc hmem
    rw [List.mem_singleton] at hmem
    subst hmem
    exact absurd (hdig '}' hc) (by decide)
  have hspan2 : spanNe ['}'] ('0' :: (ds ++ '}' :: X)) =
      ('0' :: ds, '}' :: X) := by
    have h0 : '0' ∉ (['}'] : List Char) := by decide
    simp only [spanNe, if_neg h0,
      spanNe_clean_append ['}'] ds hclean '}' (by decide) X]
  have hkey : keyOf? [k] = some k := by
    rcases hk with rfl | rfl <;> rfl
  have hall : ds.all (fun c => (decDigVal? c).isSome) = true := by
    rw [List.all_eq_true]
    exact hdig
  unfold parseField
  rw [hspan]
  simp [hspan2, hkey, parseSpec, hall]

theorem strfmtParse_items (items : List TItem)
    (hwf : ∀ it ∈ items, wfTItem it) :
    strfmtParse ((items.map itemFmt).flatten) = some (items.map toFmtItem) := by
  induction items with
  | nil => simp [strfmtParse]
  | cons it t ih =>
    have hwf_it := hwf it (List.mem_cons_self _ _)
    have iht := ih (fun x hx => hwf x (List.mem_cons_of_mem _ hx))
    cases it with
    | lit c =>
      obtain ⟨-, hc1, hc2⟩ := hwf_it
      have hflat : ((TItem.lit c :: t).map itemFmt).flatten =
          c :: (t.map itemFmt).flatten := by
        simp [itemFmt]
      rw [hflat]
      rw [strfmtParse.eq_def]
      dsimp only
      rw [if_neg hc1, if_neg hc2, iht]
      simp [toFmtItem]
    | ph k pad =>
      obtain ⟨hk, hpad⟩ := hwf_it
      have hkbrace : k ≠ '{' := by rcases hk with rfl | rfl <;> decide
      cases pad with
      | none =>
        have hflat : ((TItem.ph k none :: t).map itemFmt).flatten =
            '{' :: (k :: ':' :: '}' :: (t.map itemFmt).flatten) := by
          simp [itemFmt]
        have hpf := parseField_plain k hk ((t.map itemFmt).flatten)
        rw [hflat]
        rw [strfmtParse.eq_def]
        dsimp only
        rw [if_pos rfl, if_neg hkbrace]
        split
        · rename_i it2 rest heq
          rw [hpf] at heq
          obtain ⟨rfl, rfl⟩ :
              FmtItem.ph k none = it2 ∧ (t.map itemFmt).flatten = rest := by
            simpa using heq
          rw [iht]
          simp [toFmtItem]
        · rename_i heq
          rw [hpf] at heq
          exact absurd heq (by simp)
      | some ds =>
        obtain ⟨hne, hdig⟩ := hpad
        have hflat : ((TItem.ph k (some ds) :: t).map itemFmt).flatten =
            '{' :: (k :: ':' :: '0' :: (ds ++ '}' :: (t.map itemFmt).flatten)) := by
          simp [itemFmt]
        have hpf := parseField_padded k hk ds hne hdig ((t.map itemFmt).flatten)
        rw [hflat]
        rw [strfmtParse.eq_def]
        dsimp only
        rw [if_pos rfl, if_neg hkbrace]
        split
        · rename_i it2 rest heq
          rw [hpf] at heq
          obtain ⟨rfl, rfl⟩ :
              FmtItem.ph k (some (decVal ds)) = it2 ∧
                (t.map itemFmt).flatten = rest := by
            simpa using heq
          rw [iht]
          simp [toFmtItem]
        · rename_i heq
          rw [hpf] at heq
          exact absurd heq (by simp)

theorem renderItem_toFmtItem (s p : Nat) (it : TItem) :
    renderItem s p (toFmtItem it) = outT s p it := by
  cases it with
  | lit c => rfl
  | ph k pad => cases pad <;> rfl

theorem strfmtRender_items (items : List TItem) (s p : Nat) :
    strfmtRender (items.map toFmtItem) s p = (items.map (outT s p)).flatten := by
  unfold strfmtRender
  rw [List.map_map]
  congr 1
  exact List.map_congr_left (fun it _ => renderItem_toFmtItem s p it)

/-- C10: the filename templating pipeline substitutes each `%S`
placeholder with the serial index and each `%P` placeholder with the
parallel index, zero-padded to the requested width when a `0<digits>`
specifier precedes the placeholder and in plain decimal otherwise; in
particular the template `%02S_%02P.slm` with serial index 3 and
parallel index 7 resolves to `03_07.slm`. -/
theorem c10_filename_templating (items : List TItem) (s p : Nat)
    (hwf : ∀ it ∈ items, wfTItem it) :
    resolveName (formatModel (renderTemplate items)) s p =
      some ((items.map (outT s p)).flatten) ∧
    resolveName
        (formatModel
          ['%', '0', '2', 'S', '_', '%', '0', '2', 'P', '.', 's', 'l', 'm'])
        3 7 =
      some ['0', '3', '_', '0', '7', '.', 's', 'l', 'm'] := by
  have hgen : ∀ (its : List TItem) (s' p' : Nat), (∀ it ∈ its, wfTItem it) →
      resolveName (formatModel (renderTemplate its)) s' p' =
        some ((its.map (outT s' p')).flatten) := by
    intro its s' p' hwf'
    unfold resolveName formatModel
    rw [escBraces_of_no_brace _ (renderTemplate_no_brace its hwf'),
      substPh_renderTemplate its hwf', strfmtParse_items its hwf']
    simp [strfmtRender_items]
  refine ⟨hgen items s p hwf, ?_⟩
  have hconc := hgen
    [TItem.ph 'S' (some ['2']), TItem.lit '_', TItem.ph 'P' (some ['2']),
     TItem.lit '.', TItem.lit 's', TItem.lit 'l', TItem.lit 'm'] 3 7
    (by decide)
  have hrt :
      renderTemplate
        [TItem.ph 'S' (some ['2']), TItem.lit '_', TItem.ph 'P' (some ['2']),
         TItem.lit '.', TItem.lit 's', TItem.lit 'l', TItem.lit 'm'] =
      ['%', '0', '2', 'S', '_', '%', '0', '2', 'P', '.', 's', 'l', 'm'] := rfl
  rw [hrt] at hconc
  rw [hconc]
  simp [outT, zeroPadDec, decVal, decDigVal?, decDigits, hexDigitU,
    hexDigitList]

theorem c10_filename_templating_witness :
    resolveName
        (formatModel
          (renderTemplate
            [TItem.ph 'S' none, TItem.lit '-', TItem.ph 'P' (some ['3'])]))
        12 5 =
      some
        (([TItem.ph 'S' none, TItem.lit '-',
            TItem.ph 'P' (some ['3'])].map (outT 12 5)).flatten) :=
  (c10_filename_templating
    [TItem.ph 'S' none, TItem.lit '-', TItem.ph 'P' (some ['3'])] 12 5
    (by decide)).1

theorem c3_single_bank_roundtrip_witness :
    ∃ mem,
      mem_from_file [] false
        (inputLines [['0', '0', '0', '0', '0', '0', '0', '1'],
          ['D', 'E', 'A', 'D', 'B', 'E', 'E', 'F']]) = .ok mem ∧
      ∀ i w,
        ([['0', '0', '0', '0', '0', '0', '0', '1'],
          ['D', 'E', 'A', 'D', 'B', 'E', 'E', 'F']] :
            List (List Char))[i]? = some w →
        (bankLines mem 0 32 1
            ([['0', '0', '0', '0', '0', '0', '0', '1'],
              ['D', 'E', 'A', 'D', 'B', 'E', 'E', 'F']] :
                List (List Char)).length 0 0)[i]? =
          some ('@' :: fmt8X i ++ ' ' :: w ++ ['\n']) :=
  c3_single_bank_roundtrip _ [] (by decide)
